import Mathlib

/-!
Verification of the validator-compilation and caching registry of
prost-reflect-validate (src/prost-reflect-validate/src/registry.rs).

The registry compiles, per message schema, an ordered list of whole-message
validation steps, memoizes it in a cache keyed by the schema's full name,
breaks recursive schema graphs with a placeholder entry, and re-executes the
cached plan for every message of that type.

Shallow embedding conventions:
* anyhow errors are strings; fallible Rust functions return Except String.
* The HashMap cache is an association list with insert-by-prepending, which
  has the same lookup semantics as HashMap::insert (the newest binding wins).
* Rust closures of type ValidationFn are represented by a deep Step datatype
  (one constructor per closure shape pushed in Registry::register), plus an
  interpreter that executes a step against a message and a cache snapshot,
  exactly as the closures do at invocation time.
* External collaborators (rule extraction, presence predicate, field/list/map
  chain compilers) are not in the given source; they are modelled from the
  spec, each with a doc comment saying so.
* The RwLock is modelled by sequential state threading: read access passes the
  current cache, write access threads an updated cache through.
-/

namespace ProstValidate

/-- Errors (anyhow::Error) are modelled as strings. -/
abbrev Err := String

/-- A reflected runtime value (prost_reflect::Value): either absent/default,
an opaque scalar, a nested dynamic message (type name plus named fields),
a repeated value, or a map value. -/
inductive Value where
  | unset : Value
  | scalar (n : Int) : Value
  | msg (typeName : String) (fields : List (String × Value)) : Value
  | listV (elems : List Value) : Value
  | mapV (entries : List (Value × Value)) : Value

/-- Modelled from the spec: the opaque rule payload (FieldRules) together with
the chains the external chain compilers derive from it.  The core passes the
payload through unexamined, so we let the payload carry directly the scalar
check used by the field chain compiler and the tri-state chains used by the
list and map chain compilers. -/
structure Rules where
  check : Value → Except Err Bool
  listChain : List (Option (List Value) → Except Err Bool)
  mapChain : List (Option (List (Value × Value)) → Except Err Bool)

/-- A member field as seen from its oneof descriptor (the inner loop of
Registry::register iterates the oneof's own field descriptors).
The rules field is the response of the external Rule Extractor for this
field, modelled from the spec: Ok none means unconstrained. -/
structure OneofFieldD where
  fullName : String
  messageType : Option String
  rules : Except Err (Option Rules)

/-- A oneof descriptor: name, member fields, and the boolean
VALIDATION_ONE_OF_RULES extension read from the oneof's options. -/
structure OneofDesc where
  name : String
  fields : List OneofFieldD
  oneofRules : Bool

/-- A field descriptor of a message schema.  messageType is the full name of
the nested schema for singular message-typed fields.  rules is the response
of the external Rule Extractor (modelled from the spec: Ok none means the
field is unconstrained). -/
structure FieldDesc where
  fullName : String
  isList : Bool
  isMap : Bool
  messageType : Option String
  rules : Except Err (Option Rules)
  containingOneof : Option OneofDesc

/-- A message schema descriptor: full name, the VALIDATION_DISABLED and
VALIDATION_IGNORED type-level option flags, and the declared field list. -/
structure MessageDesc where
  fullName : String
  disabled : Bool
  ignored : Bool
  fields : List FieldDesc

/-- The per-field validation callable produced by make_validate_field:
either an opaque scalar chain (external collaborator, depends only on the
field value) or, for message-typed fields, a late-bound validation of the
nested message through a cache lookup by name at invocation time. -/
inductive FieldCheck where
  | fnCheck (f : Value → Except Err Bool)
  | nestedMsg (typeName : String)

/-- Deep representation of the ValidationFn closures pushed into the fns
vector by Registry::register, one constructor per closure shape:
* oneofField: lines 65-72, presence-guarded member field validation;
* oneofCheck: lines 76-91, the mutual-exclusivity scan over member names;
* listStep / mapStep: lines 97-106 / 111-120, tri-state chain execution;
* fieldStep: lines 125-129, unconditional singular field validation. -/
inductive Step where
  | oneofField (name : String) (check : FieldCheck)
  | oneofCheck (groupName : String) (memberNames : List String)
  | listStep (name : String) (chain : List (Option (List Value) → Except Err Bool))
  | mapStep (name : String) (chain : List (Option (List (Value × Value)) → Except Err Bool))
  | fieldStep (name : String) (check : FieldCheck)

/-- A compiled validator: the ordered step list built by register.
The placeholder inserted at line 37 and the permanent no-op of line 42 are
both the closure that ignores its argument and returns Ok, i.e. the empty
step list. -/
abbrev Validator := List Step

/-- The registry cache: HashMap from schema full name to compiled validator,
modelled as an association list where insertion prepends. -/
abbrev Cache := List (String × Validator)

/-- HashMap::get. -/
def lookupC : Cache → String → Option Validator
  | [], _ => none
  | (k, v) :: rest, n => if k == n then some v else lookupC rest n

/-- HashMap::insert (the new binding shadows any previous one). -/
def insertC (c : Cache) (k : String) (v : Validator) : Cache := (k, v) :: c

/-- The oneofs membership map of register (field full name to oneof name),
modelled as an association list; only key presence is ever consulted. -/
def lookupS : List (String × String) → String → Option String
  | [], _ => none
  | (k, v) :: rest, n => if k == n then some v else lookupS rest n

/-- DynamicMessage::get_field by field full name; absent fields read as the
default/unset marker. -/
def getField : List (String × Value) → String → Value
  | [], _ => Value.unset
  | (k, v) :: rest, n => if k == n then v else getField rest n

/-- Modelled from the spec: the external Presence Predicate (is_set in
utils.rs, not part of the given source).  A value counts as set exactly when
it is not the absent/default marker. -/
def isSet : Value → Bool
  | Value.unset => false
  | _ => true

/-- Value::as_list. -/
def asList : Value → Option (List Value)
  | Value.listV l => some l
  | _ => none

/-- Value::as_map. -/
def asMap : Value → Option (List (Value × Value))
  | Value.mapV l => some l
  | _ => none

/-- The chain loop of the list/map whole-message steps (lines 99-104 and
113-118): run each chain function on the same value; an error aborts, a
false result stops the chain early, and the loop itself never fails. -/
def runChain {α : Type} : List (Option α → Except Err Bool) → Option α → Except Err Unit
  | [], _ => Except.ok ()
  | f :: rest, v =>
    match f v with
    | Except.error e => Except.error e
    | Except.ok true => runChain rest v
    | Except.ok false => Except.ok ()

/-- The mutual-exclusivity scan of lines 77-89: walk the member names with a
has-seen-one flag; a second set member fails with the multiple-values error,
and if no member is set the scan fails with the no-value error.  The error
strings reproduce the source (format_err! at lines 82 and 88) verbatim,
including the wording does-not-contains. -/
def oneofScan (g : String) (fields : List (String × Value)) : List String → Bool → Except Err Unit
  | [], has =>
    if has then Except.ok ()
    else Except.error ("oneof " ++ g ++ " does not contains any value")
  | n :: rest, has =>
    if isSet (getField fields n) then
      if has then Except.error ("oneof " ++ g ++ " contains multiple values")
      else oneofScan g fields rest true
    else oneofScan g fields rest has

/-- sizeOf bound for getField: the value read out of a field list is no
larger than the list itself (used for termination of the interpreter). -/
theorem getField_sizeOf_le (l : List (String × Value)) (n : String) :
    sizeOf (getField l n) ≤ sizeOf l := by
  induction l with
  | nil => simp [getField]
  | cons p rest ih =>
    obtain ⟨k, v⟩ := p
    simp only [getField]
    split
    · simp
      omega
    · simp
      omega

mutual

/-- Execution of a compiled validator (the closure built at lines 131-136):
run each step in order, abort and propagate on the first error-returning
step, succeed only if every step succeeds. -/
def runValidator (cache : Cache) (steps : List Step) (fields : List (String × Value)) :
    Except Err Unit :=
  match steps with
  | [] => Except.ok ()
  | s :: rest =>
    match runStep cache s fields with
    | Except.error e => Except.error e
    | Except.ok _ => runValidator cache rest fields
termination_by (sizeOf fields, 2, steps.length)
decreasing_by
  · apply Prod.Lex.right
    apply Prod.Lex.left
    omega
  · apply Prod.Lex.right
    apply Prod.Lex.right
    simp only [List.length_cons]
    omega

/-- Execution of one whole-message step against a message (the bodies of the
closures pushed by register). -/
def runStep (cache : Cache) (s : Step) (fields : List (String × Value)) : Except Err Unit :=
  match s with
  | Step.oneofField n check =>
    if isSet (getField fields n) then
      match runCheck cache check (getField fields n) with
      | Except.error e => Except.error e
      | Except.ok _ => Except.ok ()
    else Except.ok ()
  | Step.oneofCheck g members => oneofScan g fields members false
  | Step.listStep n chain => runChain chain (asList (getField fields n))
  | Step.mapStep n chain => runChain chain (asMap (getField fields n))
  | Step.fieldStep n check =>
    match runCheck cache check (getField fields n) with
    | Except.error e => Except.error e
    | Except.ok _ => Except.ok ()
termination_by (sizeOf fields, 1, 0)
decreasing_by
  all_goals
    rcases Nat.lt_or_ge (sizeOf (getField fields n)) (sizeOf fields) with h | h
    · exact Prod.Lex.left _ _ h
    · have h2 := getField_sizeOf_le fields n
      have h3 : sizeOf (getField fields n) = sizeOf fields := Nat.le_antisymm h2 h
      rw [h3]
      apply Prod.Lex.right
      apply Prod.Lex.left
      omega

/-- Invocation of a compiled field check.  For message-typed fields this is
the late-bound lookup-by-name through the cache snapshot (do_validate, lines
156-163, whose miss branch is the no-validator error); absent or non-message
values are passed over, modelled from the spec (the chain validates the
nested message only when one is present). -/
def runCheck (cache : Cache) (check : FieldCheck) (v : Value) : Except Err Bool :=
  match check with
  | FieldCheck.fnCheck f => f v
  | FieldCheck.nestedMsg t =>
    match v with
    | Value.msg _ fs =>
      match lookupC cache t with
      | some steps =>
        match runValidator cache steps fs with
        | Except.error e => Except.error e
        | Except.ok _ => Except.ok true
      | none => Except.error ("no validator for " ++ t)
    | _ => Except.ok true
termination_by (sizeOf v, 0, 0)
decreasing_by
  apply Prod.Lex.left
  simp

end

/-- The reflection universe: the set of message descriptors reachable at run
time, used to resolve a schema full name to its descriptor (in the source
this resolution is done by prost_reflect itself). -/
abbrev Env := List MessageDesc

/-- Resolve a schema full name to its descriptor. -/
def lookupEnv (env : Env) (n : String) : Option MessageDesc :=
  env.find? (fun d => d.fullName == n)

/-- The type of the recursive-compilation callback handed to the modelled
chain compilers: given the cache under exclusive access and a schema full
name, compile that schema into the cache, returning the outcome and the
updated cache (the Rust code mutates the map in place, so cache updates made
before an error survive it). -/
abbrev RegFn := Cache → String → (Except Err Unit) × Cache

/-- Modelled from the spec: make_validate_field (field.rs, not part of the
given source).  Per the spec, the Field Chain Compiler receives the cache
under exclusive access together with the field descriptor and rule payload;
for a message-typed field it compiles the nested schema into the cache
(compilation is transitively closed) and produces a check that resolves the
nested validator by name through the cache snapshot at invocation time; for
other singular fields it produces the opaque scalar chain carried by the
rule payload.  A nested compilation failure is a collaborator failure and
propagates. -/
def makeValidateFieldM (reg : RegFn) (cache : Cache) (messageType : Option String)
    (rules : Rules) : (Except Err FieldCheck) × Cache :=
  match messageType with
  | none => (Except.ok (FieldCheck.fnCheck rules.check), cache)
  | some t =>
    match reg cache t with
    | (Except.ok _, cache') => (Except.ok (FieldCheck.nestedMsg t), cache')
    | (Except.error e, cache') => (Except.error e, cache')

/-- The inner loop of Registry::register over a oneof's member fields (lines
57-73): record every member in the membership map (before consulting its
rules), skip members whose Rule Extractor yields none, and for each ruled
member compile its field check and push the presence-guarded member step.
An extraction error aborts compilation. -/
def compileOneofFields (reg : RegFn) (gname : String) :
    Cache → List OneofFieldD → List (String × String) → List Step →
    (Except Err (List (String × String) × List Step)) × Cache
  | cache, [], oneofs, fns => (Except.ok (oneofs, fns), cache)
  | cache, f :: rest, oneofs, fns =>
    let oneofs' := (f.fullName, gname) :: oneofs
    match f.rules with
    | Except.error e => (Except.error e, cache)
    | Except.ok none => compileOneofFields reg gname cache rest oneofs' fns
    | Except.ok (some rules) =>
      match makeValidateFieldM reg cache f.messageType rules with
      | (Except.error e, cache') => (Except.error e, cache')
      | (Except.ok check, cache') =>
        compileOneofFields reg gname cache' rest oneofs'
          (fns ++ [Step.oneofField f.fullName check])

/-- The field loop of Registry::register (lines 47-130): extract the field's
rules (none excludes the field), skip fields already recorded in the oneofs
membership map, process a field's containing oneof at that point (member
steps, then the exclusivity step when the oneof requests it), and otherwise
push the list, map, or singular-field whole-message step. -/
def compileFields (reg : RegFn) :
    Cache → List FieldDesc → List (String × String) → List Step →
    (Except Err (List Step)) × Cache
  | cache, [], _, fns => (Except.ok fns, cache)
  | cache, f :: rest, oneofs, fns =>
    match f.rules with
    | Except.error e => (Except.error e, cache)
    | Except.ok none => compileFields reg cache rest oneofs fns
    | Except.ok (some rules) =>
      if (lookupS oneofs f.fullName).isSome then
        compileFields reg cache rest oneofs fns
      else
        match f.containingOneof with
        | some g =>
          match compileOneofFields reg g.name cache g.fields oneofs fns with
          | (Except.error e, cache') => (Except.error e, cache')
          | (Except.ok (oneofs', fns'), cache') =>
            compileFields reg cache' rest oneofs'
              (if g.oneofRules then
                fns' ++ [Step.oneofCheck g.name (g.fields.map (fun m => m.fullName))]
              else fns')
        | none =>
          if f.isList then
            compileFields reg cache rest oneofs (fns ++ [Step.listStep f.fullName rules.listChain])
          else if f.isMap then
            compileFields reg cache rest oneofs (fns ++ [Step.mapStep f.fullName rules.mapChain])
          else
            match makeValidateFieldM reg cache f.messageType rules with
            | (Except.error e, cache') => (Except.error e, cache')
            | (Except.ok check, cache') =>
              compileFields reg cache' rest oneofs (fns ++ [Step.fieldStep f.fullName check])

mutual

/-- Shallow embedding of Registry::register (lines 32-138), with a fuel
argument bounding the depth of the modelled recursive compilation of nested
schema types; exceeding the fuel is reported as a distinguished error, so a
fuel-independent result witnesses termination.  Steps of the source:
return immediately if an entry already exists (lines 33-35); insert the
placeholder no-op before examining any field (line 37); on the disabled or
ignored type-level option, overwrite with the permanent no-op and return
without inspecting fields (lines 41-44); otherwise compile the field steps
and overwrite the placeholder with the finalized validator (lines 45-137).
The cache state is threaded through errors, since the Rust code mutates the
locked map in place. -/
def registerFuel (env : Env) : Nat → Cache → MessageDesc → (Except Err Unit) × Cache
  | 0, cache, _ => (Except.error "compile: recursion fuel exhausted", cache)
  | fuel + 1, cache, desc =>
    match lookupC cache desc.fullName with
    | some _ => (Except.ok (), cache)
    | none =>
      let cache1 := insertC cache desc.fullName []
      if desc.disabled || desc.ignored then
        (Except.ok (), insertC cache1 desc.fullName [])
      else
        match compileFields (regCallbackF env fuel) cache1 desc.fields [] [] with
        | (Except.error e, cache2) => (Except.error e, cache2)
        | (Except.ok fns, cache2) => (Except.ok (), insertC cache2 desc.fullName fns)
termination_by fuel => (fuel, 0)
decreasing_by
  apply Prod.Lex.left
  omega

/-- Modelled from the spec: the recursive-compilation callback used by the
chain compilers for message-typed fields; it resolves the schema name
through the reflection universe and registers it (schemas outside the
universe cannot occur through reflection and are left alone). -/
def regCallbackF (env : Env) (fuel : Nat) : RegFn := fun cache t =>
  match lookupEnv env t with
  | some d => registerFuel env fuel cache d
  | none => (Except.ok (), cache)
termination_by (fuel, 1)
decreasing_by
  apply Prod.Lex.right
  omega

end

/-- A dynamic message: its schema full name and its field values keyed by
field full name. -/
structure Msg where
  typeName : String
  fields : List (String × Value)

/-- Shallow embedding of Registry::validate (lines 140-154), with a fuel
argument for the retry recursion of line 153 (the source recursion is
unbounded syntactically; fuel two always suffices, which is proved, so the
distinguished fuel error witnesses the guaranteed retry hit).  Under read
access, a cache hit executes the compiled validator against the message and
the cache snapshot; on a miss, register runs under write access and the
call retries.  A register error propagates to the caller (the question-mark
operator at line 151) with the in-place map mutations kept. -/
def validateFuel (env : Env) (regFuel : Nat) : Nat → Cache → Msg → (Except Err Unit) × Cache
  | 0, cache, _ => (Except.error "validate: retry fuel exhausted", cache)
  | n + 1, cache, msg =>
    match lookupC cache msg.typeName with
    | some steps => (runValidator cache steps msg.fields, cache)
    | none =>
      match lookupEnv env msg.typeName with
      | some desc =>
        match registerFuel env regFuel cache desc with
        | (Except.error e, cache') => (Except.error e, cache')
        | (Except.ok _, cache') => validateFuel env regFuel n cache' msg
      | none => (Except.error ("no descriptor for " ++ msg.typeName), cache)

/-! Observation helpers used by the theorems. -/

/-- Does this step carry the mutual-exclusivity check of the named group? -/
def isCheckFor (gname : String) : Step → Bool
  | Step.oneofCheck n _ => n == gname
  | _ => false

/-- Did the Rule Extractor yield a rule payload for this response? -/
def hasRuleSome : Except Err (Option Rules) → Bool
  | Except.ok (some _) => true
  | _ => false

/-- Does this field trigger processing of the group with the given name:
it is a member of a oneof of that name and its rule extraction yields a
payload?  (Registry::register processes a oneof at the first such field.) -/
def triggers (gname : String) (f : FieldDesc) : Bool :=
  (match f.containingOneof with
   | some g => g.name == gname
   | none => false) && hasRuleSome f.rules

/-- The field names a step reads from the message: executing the step
queries the message only through get_field on these names. -/
def stepReads : Step → List String
  | Step.oneofField n _ => [n]
  | Step.oneofCheck _ members => members
  | Step.listStep n _ => [n]
  | Step.mapStep n _ => [n]
  | Step.fieldStep n _ => [n]

/-! Concrete schemas used by witnesses and counterexamples. -/

/-- A rule payload whose chains all trivially succeed. -/
def trivRules : Rules :=
  { check := fun _ => Except.ok true, listChain := [], mapChain := [] }

/-- A plain schema with one ruled scalar field. -/
def desc1 : MessageDesc :=
  { fullName := "S1", disabled := false, ignored := false,
    fields := [ { fullName := "S1.a", isList := false, isMap := false, messageType := none,
                  rules := Except.ok (some trivRules), containingOneof := none } ] }

def env1 : Env := [desc1]

/-- A directly self-referencing schema: message A has a message-typed field
of type A. -/
def descA : MessageDesc :=
  { fullName := "A", disabled := false, ignored := false,
    fields := [ { fullName := "A.self", isList := false, isMap := false,
                  messageType := some "A",
                  rules := Except.ok (some trivRules), containingOneof := none } ] }

def envA : Env := [descA]

/-- The compiled plan of schema A: one nested-message step resolved by name
at invocation time. -/
def stepsA : Validator := [Step.fieldStep "A.self" (FieldCheck.nestedMsg "A")]

/-- Mutually-referencing schemas MA and MB. -/
def descMA : MessageDesc :=
  { fullName := "MA", disabled := false, ignored := false,
    fields := [ { fullName := "MA.b", isList := false, isMap := false,
                  messageType := some "MB",
                  rules := Except.ok (some trivRules), containingOneof := none } ] }

def descMB : MessageDesc :=
  { fullName := "MB", disabled := false, ignored := false,
    fields := [ { fullName := "MB.a", isList := false, isMap := false,
                  messageType := some "MA",
                  rules := Except.ok (some trivRules), containingOneof := none } ] }

def envAB : Env := [descMA, descMB]

def stepsMA : Validator := [Step.fieldStep "MA.b" (FieldCheck.nestedMsg "MB")]

def stepsMB : Validator := [Step.fieldStep "MB.a" (FieldCheck.nestedMsg "MA")]

/-- The cache produced by compiling the self-referencing schema A from the
empty cache: the finalized plan shadowing the recursion placeholder. -/
def cacheA : Cache := [("A", stepsA), ("A", [])]

/-- The cache produced by compiling MA from the empty cache: MB is compiled
transitively within the same pass, and both finalized plans shadow their
placeholders. -/
def cacheAB : Cache := [("MA", stepsMA), ("MB", stepsMB), ("MB", []), ("MA", [])]

/-- A schema whose only field fails rule extraction: compiling it fails. -/
def desc4 : MessageDesc :=
  { fullName := "S4", disabled := false, ignored := false,
    fields := [ { fullName := "S4.f", isList := false, isMap := false, messageType := none,
                  rules := Except.error "rule extraction failed", containingOneof := none } ] }

def env4 : Env := [desc4]

/-- A oneof group g with two ruled scalar members x and y, exclusivity
requested. -/
def g5 : OneofDesc :=
  { name := "g",
    fields := [ { fullName := "x", messageType := none, rules := Except.ok (some trivRules) },
                { fullName := "y", messageType := none, rules := Except.ok (some trivRules) } ],
    oneofRules := true }

def fx5 : FieldDesc :=
  { fullName := "x", isList := false, isMap := false, messageType := none,
    rules := Except.ok (some trivRules), containingOneof := some g5 }

def fy5 : FieldDesc :=
  { fullName := "y", isList := false, isMap := false, messageType := none,
    rules := Except.ok (some trivRules), containingOneof := some g5 }

def desc5 : MessageDesc :=
  { fullName := "S5", disabled := false, ignored := false, fields := [fx5, fy5] }

def env5 : Env := [desc5]

/-- A oneof group with exclusivity requested but in which no member has
extractable rules. -/
def g6 : OneofDesc :=
  { name := "g6g",
    fields := [ { fullName := "x6", messageType := none, rules := Except.ok none },
                { fullName := "y6", messageType := none, rules := Except.ok none } ],
    oneofRules := true }

def fx6 : FieldDesc :=
  { fullName := "x6", isList := false, isMap := false, messageType := none,
    rules := Except.ok none, containingOneof := some g6 }

def fy6 : FieldDesc :=
  { fullName := "y6", isList := false, isMap := false, messageType := none,
    rules := Except.ok none, containingOneof := some g6 }

def desc6 : MessageDesc :=
  { fullName := "S6", disabled := false, ignored := false, fields := [fx6, fy6] }

def env6 : Env := [desc6]

/-- A schema flagged disabled whose only field would fail rule extraction if
it were ever inspected. -/
def desc8 : MessageDesc :=
  { fullName := "S8", disabled := true, ignored := false,
    fields := [ { fullName := "S8.f", isList := false, isMap := false, messageType := none,
                  rules := Except.error "boom", containingOneof := none } ] }

def env8 : Env := [desc8]

/-- A oneof group with exclusivity requested whose member x10 has no rules
while member y10 has rules. -/
def g10 : OneofDesc :=
  { name := "g10g",
    fields := [ { fullName := "x10", messageType := none, rules := Except.ok none },
                { fullName := "y10", messageType := none, rules := Except.ok (some trivRules) } ],
    oneofRules := true }

def fx10 : FieldDesc :=
  { fullName := "x10", isList := false, isMap := false, messageType := none,
    rules := Except.ok none, containingOneof := some g10 }

def fy10 : FieldDesc :=
  { fullName := "y10", isList := false, isMap := false, messageType := none,
    rules := Except.ok (some trivRules), containingOneof := some g10 }

def desc10 : MessageDesc :=
  { fullName := "S10", disabled := false, ignored := false, fields := [fx10, fy10] }

def env10 : Env := [desc10]

/-- The plan compiled for schema S5: one presence-guarded step per ruled
member of its oneof, then the exclusivity step. -/
def steps5 : Validator :=
  [Step.oneofField "x" (FieldCheck.fnCheck trivRules.check),
    Step.oneofField "y" (FieldCheck.fnCheck trivRules.check),
    Step.oneofCheck "g" ["x", "y"]]

/-- The cache produced by compiling S5 from the empty cache. -/
def cache5 : Cache := [("S5", steps5), ("S5", [])]

/-- A schema with a rule-less field z alongside a ruled scalar field. -/
def fz11 : FieldDesc :=
  { fullName := "z", isList := false, isMap := false, messageType := none,
    rules := Except.ok none, containingOneof := none }

def fa11 : FieldDesc :=
  { fullName := "S11.a", isList := false, isMap := false, messageType := none,
    rules := Except.ok (some trivRules), containingOneof := none }

def desc11 : MessageDesc :=
  { fullName := "S11", disabled := false, ignored := false, fields := [fz11, fa11] }

def env11 : Env := [desc11]

/-- The plan compiled for S11: only the ruled field contributes a step. -/
def steps11 : Validator := [Step.fieldStep "S11.a" (FieldCheck.fnCheck trivRules.check)]

/-- The cache produced by compiling S11 from the empty cache. -/
def cache11 : Cache := [("S11", steps11), ("S11", [])]

/-! ### Cache and environment lemmas -/

theorem lookupC_insert_self (c : Cache) (k : String) (v : Validator) :
    lookupC (insertC c k v) k = some v := by
  simp [insertC, lookupC]

theorem lookupC_insert_isSome (c : Cache) (k k' : String) (v : Validator)
    (h : (lookupC c k).isSome) : (lookupC (insertC c k' v) k).isSome := by
  simp only [insertC, lookupC]
  split
  · simp
  · exact h

theorem lookupEnv_fullName (env : Env) (n : String) (d : MessageDesc)
    (h : lookupEnv env n = some d) : d.fullName = n := by
  have h2 := List.find?_some h
  exact eq_of_beq h2

/-! ### Execution lemmas: compiled validators run their steps in order -/

theorem runValidator_nil (cache : Cache) (fields : List (String × Value)) :
    runValidator cache [] fields = Except.ok () := by
  simp [runValidator]

theorem runValidator_cons_error (cache : Cache) (s : Step) (rest : List Step)
    (fields : List (String × Value)) (e : Err) (h : runStep cache s fields = Except.error e) :
    runValidator cache (s :: rest) fields = Except.error e := by
  rw [runValidator]
  simp [h]

theorem runValidator_cons_ok (cache : Cache) (s : Step) (rest : List Step)
    (fields : List (String × Value)) (u : Unit) (h : runStep cache s fields = Except.ok u) :
    runValidator cache (s :: rest) fields = runValidator cache rest fields := by
  rw [runValidator]
  simp [h]

theorem runValidator_append_ok (cache : Cache) (pre rest : List Step)
    (fields : List (String × Value)) (h : ∀ t ∈ pre, runStep cache t fields = Except.ok ()) :
    runValidator cache (pre ++ rest) fields = runValidator cache rest fields := by
  induction pre with
  | nil => simp
  | cons hd tl ih =>
    rw [List.cons_append, runValidator_cons_ok cache hd (tl ++ rest) fields () (h hd (by simp))]
    exact ih (fun t ht => h t (by simp [ht]))

/-- C9: a CompiledValidator, invoked with a message and a cache snapshot,
runs its whole-message steps strictly in order (the order the compile pass
pushed them, i.e. the schema's declared field order); it aborts at the first
step that returns an error, propagating that error without running any later
step, and returns success exactly when every step succeeds.  (Lines 131-136
of registry.rs.) -/
theorem compiled_validator_step_order :
    (∀ (cache : Cache) (fields : List (String × Value)) (pre post : List Step) (s : Step)
      (e : Err),
      (∀ t ∈ pre, runStep cache t fields = Except.ok ()) →
      runStep cache s fields = Except.error e →
      runValidator cache (pre ++ s :: post) fields = Except.error e)
    ∧ (∀ (cache : Cache) (steps : List Step) (fields : List (String × Value)),
      runValidator cache steps fields = Except.ok () ↔
        ∀ s ∈ steps, runStep cache s fields = Except.ok ()) := by
  constructor
  · intro cache fields pre post s e hpre hs
    rw [runValidator_append_ok cache pre (s :: post) fields hpre]
    exact runValidator_cons_error cache s post fields e hs
  · intro cache steps fields
    induction steps with
    | nil =>
      simp [runValidator_nil]
    | cons s rest ih =>
      cases h : runStep cache s fields with
      | error e =>
        rw [runValidator_cons_error cache s rest fields e h]
        constructor
        · intro hc
          cases hc
        · intro hall
          have hs := hall s (by simp)
          rw [h] at hs
          cases hs
      | ok u =>
        cases u
        rw [runValidator_cons_ok cache s rest fields () h]
        rw [ih]
        constructor
        · intro hall t ht
          rcases List.mem_cons.mp ht with h1 | h1
          · rw [h1]
            exact h
          · exact hall t h1
        · intro hall t ht
          exact hall t (List.mem_cons_of_mem s ht)

/-- Witness for compiled_validator_step_order: a two-step validator whose
first step succeeds and whose second step errors returns that error. -/
theorem compiled_validator_step_order_witness :
    runValidator [] [Step.listStep "p" [], Step.oneofCheck "g" []] [] =
      Except.error "oneof g does not contains any value" :=
  compiled_validator_step_order.1 [] [] [Step.listStep "p" []] []
    (Step.oneofCheck "g" []) "oneof g does not contains any value"
    (by
      intro t ht
      simp only [List.mem_singleton] at ht
      subst ht
      simp [runStep, runChain, asList, getField])
    (by simp [runStep, oneofScan])

/-! ### Tri-state chain execution for list and map fields -/

theorem runChain_append_true {α : Type} (pre rest : List (Option α → Except Err Bool))
    (v : Option α) (h : ∀ g ∈ pre, g v = Except.ok true) :
    runChain (pre ++ rest) v = runChain rest v := by
  induction pre with
  | nil => simp
  | cons hd tl ih =>
    rw [List.cons_append, runChain, h hd (by simp)]
    exact ih (fun g hg => h g (by simp [hg]))

/-- C7: the whole-message step of a list- or map-shaped field runs the
field's compiled chain in order with tri-state semantics: an erroring step
aborts and fails the whole-message step with that error; a step returning
false stops the remaining steps without failing; the step succeeds whenever
no executed chain function returned an error, including after an early stop.
(Lines 95-122 of registry.rs.) -/
theorem list_map_chain_tristate :
    (∀ (cache : Cache) (n : String) (chain : List (Option (List Value) → Except Err Bool))
      (fields : List (String × Value)),
      runStep cache (Step.listStep n chain) fields =
        runChain chain (asList (getField fields n)))
    ∧ (∀ (cache : Cache) (n : String)
      (chain : List (Option (List (Value × Value)) → Except Err Bool))
      (fields : List (String × Value)),
      runStep cache (Step.mapStep n chain) fields =
        runChain chain (asMap (getField fields n)))
    ∧ (∀ (α : Type) (v : Option α) (pre post : List (Option α → Except Err Bool))
      (f : Option α → Except Err Bool) (e : Err),
      (∀ g ∈ pre, g v = Except.ok true) → f v = Except.error e →
      runChain (pre ++ f :: post) v = Except.error e)
    ∧ (∀ (α : Type) (v : Option α) (pre post : List (Option α → Except Err Bool))
      (f : Option α → Except Err Bool),
      (∀ g ∈ pre, g v = Except.ok true) → f v = Except.ok false →
      runChain (pre ++ f :: post) v = Except.ok ())
    ∧ (∀ (α : Type) (v : Option α) (chain : List (Option α → Except Err Bool)),
      (∀ g ∈ chain, ∀ e, g v ≠ Except.error e) →
      runChain chain v = Except.ok ()) := by
  refine ⟨?_, ?_, ?_, ?_, ?_⟩
  · intro cache n chain fields
    simp [runStep]
  · intro cache n chain fields
    simp [runStep]
  · intro α v pre post f e hpre hf
    rw [runChain_append_true pre (f :: post) v hpre, runChain, hf]
  · intro α v pre post f hpre hf
    rw [runChain_append_true pre (f :: post) v hpre, runChain, hf]
  · intro α v chain h
    induction chain with
    | nil => rfl
    | cons f rest ih =>
      cases hf : f v with
      | error e => exact absurd hf (h f (by simp) e)
      | ok b =>
        cases b
        · rw [runChain, hf]
        · rw [runChain, hf]
          exact ih (fun g hg => h g (by simp [hg]))

/-- Witness for list_map_chain_tristate: a chain that stops early before an
erroring step still succeeds. -/
theorem list_map_chain_tristate_witness :
    runChain
      [(fun _ => Except.ok true : Option (List Value) → Except Err Bool),
        fun _ => Except.ok false, fun _ => Except.error "boom"]
      (none : Option (List Value)) = Except.ok () :=
  list_map_chain_tristate.2.2.2.1 (List Value) none
    [fun _ => Except.ok true] [fun _ => Except.error "boom"] (fun _ => Except.ok false)
    (by
      intro g hg
      simp only [List.mem_singleton] at hg
      subst hg
      rfl)
    rfl

/-! ### Mutual-exclusivity scan semantics -/

theorem oneofScan_true_ok (g : String) (fields : List (String × Value)) (ms : List String)
    (h : ∀ n ∈ ms, isSet (getField fields n) = false) :
    oneofScan g fields ms true = Except.ok () := by
  induction ms with
  | nil => rfl
  | cons hd tl ih =>
    rw [oneofScan]
    rw [h hd (by simp)]
    simp only [Bool.false_eq_true, if_false]
    exact ih (fun n hn => h n (by simp [hn]))

theorem oneofScan_true_multi (g : String) (fields : List (String × Value)) (ms : List String)
    (h : ∃ n ∈ ms, isSet (getField fields n) = true) :
    oneofScan g fields ms true = Except.error ("oneof " ++ g ++ " contains multiple values") := by
  induction ms with
  | nil => simp at h
  | cons hd tl ih =>
    rw [oneofScan]
    cases hhd : isSet (getField fields hd) with
    | true => simp
    | false =>
      simp only [Bool.false_eq_true, if_false]
      apply ih
      rcases h with ⟨n, hn, hset⟩
      rcases List.mem_cons.mp hn with h1 | h1
      · rw [h1] at hset
        rw [hset] at hhd
        cases hhd
      · exact ⟨n, h1, hset⟩

theorem oneofScan_false_cases (g : String) (fields : List (String × Value)) (ms : List String) :
    ((ms.filter (fun n => isSet (getField fields n))).length = 0 →
      oneofScan g fields ms false =
        Except.error ("oneof " ++ g ++ " does not contains any value"))
    ∧ ((ms.filter (fun n => isSet (getField fields n))).length = 1 →
      oneofScan g fields ms false = Except.ok ())
    ∧ (2 ≤ (ms.filter (fun n => isSet (getField fields n))).length →
      oneofScan g fields ms false =
        Except.error ("oneof " ++ g ++ " contains multiple values")) := by
  induction ms with
  | nil =>
    refine ⟨fun _ => rfl, fun h => ?_, fun h => ?_⟩
    · simp at h
    · simp at h
  | cons hd tl ih =>
    cases hhd : isSet (getField fields hd) with
    | false =>
      have hfil : (hd :: tl).filter (fun n => isSet (getField fields n)) =
          tl.filter (fun n => isSet (getField fields n)) := by
        simp [List.filter_cons, hhd]
      rw [hfil]
      have hscan : oneofScan g fields (hd :: tl) false = oneofScan g fields tl false := by
        rw [oneofScan, hhd]
        simp
      rw [hscan]
      exact ih
    | true =>
      have hfil : (hd :: tl).filter (fun n => isSet (getField fields n)) =
          hd :: tl.filter (fun n => isSet (getField fields n)) := by
        simp [List.filter_cons, hhd]
      rw [hfil]
      have hscan : oneofScan g fields (hd :: tl) false = oneofScan g fields tl true := by
        rw [oneofScan, hhd]
        simp
      rw [hscan]
      refine ⟨fun h => ?_, fun h => ?_, fun h => ?_⟩
      · simp at h
      · apply oneofScan_true_ok
        intro n hn
        by_contra hc
        have hmem : n ∈ tl.filter (fun n => isSet (getField fields n)) := by
          rw [List.mem_filter]
          exact ⟨hn, by simpa using hc⟩
        simp only [List.length_cons] at h
        have : tl.filter (fun n => isSet (getField fields n)) = [] := by
          apply List.length_eq_zero.mp
          omega
        rw [this] at hmem
        cases hmem
      · apply oneofScan_true_multi
        simp only [List.length_cons] at h
        have hne : tl.filter (fun n => isSet (getField fields n)) ≠ [] := by
          intro hnil
          rw [hnil] at h
          simp at h
        obtain ⟨x, hx⟩ := List.exists_mem_of_ne_nil _ hne
        have hm := List.mem_filter.mp hx
        exact ⟨x, hm.1, by simpa using hm.2⟩

/-- C5 (amended): the exclusivity step for a oneof group counts its set
member fields: with no member set it fails with the error naming the group
and saying does-not-contains-any-value (the source wording, line 88, differs
from the claim's quoted phrase); with exactly one set member it succeeds;
with more than one set member it fails with the error naming the group and
saying contains-multiple-values (line 82). -/
theorem oneof_exclusivity_step_semantics (cache : Cache) (g : String) (members : List String)
    (fields : List (String × Value)) :
    ((members.filter (fun n => isSet (getField fields n))).length = 0 →
      runStep cache (Step.oneofCheck g members) fields =
        Except.error ("oneof " ++ g ++ " does not contains any value"))
    ∧ ((members.filter (fun n => isSet (getField fields n))).length = 1 →
      runStep cache (Step.oneofCheck g members) fields = Except.ok ())
    ∧ (2 ≤ (members.filter (fun n => isSet (getField fields n))).length →
      runStep cache (Step.oneofCheck g members) fields =
        Except.error ("oneof " ++ g ++ " contains multiple values")) := by
  have hs : runStep cache (Step.oneofCheck g members) fields = oneofScan g fields members false := by
    simp [runStep]
  rw [hs]
  exact oneofScan_false_cases g fields members

/-- Witness for oneof_exclusivity_step_semantics at a group with two members:
none set, exactly one set, and both set. -/
theorem oneof_exclusivity_step_semantics_witness :
    runStep [] (Step.oneofCheck "g" ["x", "y"]) [] =
      Except.error ("oneof " ++ "g" ++ " does not contains any value")
    ∧ runStep [] (Step.oneofCheck "g" ["x", "y"]) [("x", Value.scalar 1)] = Except.ok ()
    ∧ runStep [] (Step.oneofCheck "g" ["x", "y"]) [("x", Value.scalar 1), ("y", Value.scalar 2)] =
      Except.error ("oneof " ++ "g" ++ " contains multiple values") :=
  ⟨(oneof_exclusivity_step_semantics [] "g" ["x", "y"] []).1 (by decide),
    (oneof_exclusivity_step_semantics [] "g" ["x", "y"] [("x", Value.scalar 1)]).2.1 (by decide),
    (oneof_exclusivity_step_semantics [] "g" ["x", "y"]
      [("x", Value.scalar 1), ("y", Value.scalar 2)]).2.2 (by decide)⟩

/-- C5 counterexample: the claim quotes the no-member-set error as saying
"does not contain any value", but the error the code produces (through the
full compile-and-validate pipeline, on schema S5 with neither member of its
exclusivity-checked group set) is "oneof g does not contains any value",
which does not contain the claimed phrase. -/
theorem oneof_no_value_error_text_counterexample :
    (validateFuel env5 1 2 [] ⟨"S5", []⟩).1 =
      Except.error "oneof g does not contains any value"
    ∧ ¬ List.IsInfix ("does not contain any value".toList)
        ("oneof g does not contains any value".toList) := by
  constructor
  · simp [validateFuel, registerFuel, compileFields, compileOneofFields, makeValidateFieldM,
      regCallbackF, lookupC, insertC, lookupS, lookupEnv, env5, desc5, fx5, fy5, g5, trivRules,
      runValidator, runStep, runCheck, oneofScan, getField, isSet]
  · decide

/-! ### The compile pass only adds cache entries (keys stay bound) -/

theorem makeValidateFieldM_isSome (reg : RegFn) (cache : Cache) (mt : Option String)
    (rules : Rules) (k : String)
    (hreg : ∀ c t, (lookupC c k).isSome → (lookupC (reg c t).2 k).isSome)
    (h : (lookupC cache k).isSome) :
    (lookupC (makeValidateFieldM reg cache mt rules).2 k).isSome := by
  cases mt with
  | none => simpa [makeValidateFieldM] using h
  | some t =>
    have h2 := hreg cache t h
    rcases hrt : reg cache t with ⟨r, c'⟩
    rw [hrt] at h2
    cases r with
    | ok u => simpa [makeValidateFieldM, hrt] using h2
    | error e => simpa [makeValidateFieldM, hrt] using h2

theorem compileOneofFields_isSome (reg : RegFn) (gname : String) (k : String)
    (hreg : ∀ c t, (lookupC c k).isSome → (lookupC (reg c t).2 k).isSome) :
    ∀ (gfs : List OneofFieldD) (cache : Cache) (oneofs : List (String × String))
      (fns : List Step), (lookupC cache k).isSome →
      (lookupC (compileOneofFields reg gname cache gfs oneofs fns).2 k).isSome := by
  intro gfs
  induction gfs with
  | nil => intro cache oneofs fns h; simpa [compileOneofFields] using h
  | cons f rest ih =>
    intro cache oneofs fns h
    cases hr : f.rules with
    | error e => simpa [compileOneofFields, hr] using h
    | ok o =>
      cases o with
      | none =>
        simp only [compileOneofFields, hr]
        exact ih _ _ _ h
      | some rules =>
        have hmk := makeValidateFieldM_isSome reg cache f.messageType rules k hreg h
        rcases hm : makeValidateFieldM reg cache f.messageType rules with ⟨r, c'⟩
        rw [hm] at hmk
        cases r with
        | error e => simpa [compileOneofFields, hr, hm] using hmk
        | ok check =>
          simp only [compileOneofFields, hr, hm]
          exact ih _ _ _ hmk

theorem compileFields_isSome (reg : RegFn) (k : String)
    (hreg : ∀ c t, (lookupC c k).isSome → (lookupC (reg c t).2 k).isSome) :
    ∀ (fs : List FieldDesc) (cache : Cache) (oneofs : List (String × String))
      (fns : List Step), (lookupC cache k).isSome →
      (lookupC (compileFields reg cache fs oneofs fns).2 k).isSome := by
  intro fs
  induction fs with
  | nil => intro cache oneofs fns h; simpa [compileFields] using h
  | cons f rest ih =>
    intro cache oneofs fns h
    cases hr : f.rules with
    | error e => simpa [compileFields, hr] using h
    | ok o =>
      cases o with
      | none =>
        simp only [compileFields, hr]
        exact ih _ _ _ h
      | some rules =>
        by_cases hsk : (lookupS oneofs f.fullName).isSome
        · simp only [compileFields, hr, hsk, if_true]
          exact ih _ _ _ h
        · cases hco : f.containingOneof with
          | some g =>
            have hof := compileOneofFields_isSome reg g.name k hreg g.fields cache oneofs fns h
            rcases hcc : compileOneofFields reg g.name cache g.fields oneofs fns with ⟨r, c'⟩
            rw [hcc] at hof
            cases r with
            | error e => simpa [compileFields, hr, hsk, hco, hcc] using hof
            | ok p =>
              rcases p with ⟨oneofs', fns'⟩
              simp only [compileFields, hr, hsk, hco, hcc, if_false]
              exact ih _ _ _ hof
          | none =>
            by_cases hl : f.isList
            · simp only [compileFields, hr, hsk, hco, hl, if_true, if_false]
              exact ih _ _ _ h
            · by_cases hmp : f.isMap
              · simp only [compileFields, hr, hsk, hco, hl, hmp, if_true, if_false]
                exact ih _ _ _ h
              · have hmk := makeValidateFieldM_isSome reg cache f.messageType rules k hreg h
                rcases hm : makeValidateFieldM reg cache f.messageType rules with ⟨r, c'⟩
                rw [hm] at hmk
                cases r with
                | error e => simpa [compileFields, hr, hsk, hco, hl, hmp, hm] using hmk
                | ok check =>
                  simp only [compileFields, hr, hsk, hco, hl, hmp, hm, if_false]
                  exact ih _ _ _ hmk

theorem registerFuel_isSome (k : String) :
    ∀ (fuel : Nat) (env : Env) (cache : Cache) (desc : MessageDesc),
      (lookupC cache k).isSome → (lookupC (registerFuel env fuel cache desc).2 k).isSome := by
  intro fuel
  induction fuel with
  | zero => intro env cache desc h; simpa [registerFuel] using h
  | succ fuel ih =>
    intro env cache desc h
    have hreg : ∀ c t, (lookupC c k).isSome →
        (lookupC ((regCallbackF env fuel) c t).2 k).isSome := by
      intro c t hc
      rw [regCallbackF]
      cases he : lookupEnv env t with
      | some d => exact ih env c d hc
      | none => simpa using hc
    cases hlk : lookupC cache desc.fullName with
    | some v => simpa [registerFuel, hlk] using h
    | none =>
      by_cases hdi : (desc.disabled || desc.ignored) = true
      · simp only [registerFuel, hlk, hdi, if_true]
        exact lookupC_insert_isSome _ _ _ _ (lookupC_insert_isSome _ _ _ _ h)
      · have hcf := compileFields_isSome (regCallbackF env fuel) k hreg desc.fields
          (insertC cache desc.fullName []) [] [] (lookupC_insert_isSome _ _ _ _ h)
        rcases hc : compileFields (regCallbackF env fuel) (insertC cache desc.fullName [])
            desc.fields [] [] with ⟨r, c2⟩
        rw [hc] at hcf
        cases r with
        | error e => simpa [registerFuel, hlk, hdi, hc] using hcf
        | ok fns =>
          simp only [registerFuel, hlk, hdi, hc, if_false]
          exact lookupC_insert_isSome _ _ _ _ hcf

/-- After any run of register with positive fuel, the schema's name is bound
in the cache: on a hit it already was, and on a miss the placeholder is
inserted first and every later cache operation only adds entries (even when
compilation aborts with an error, since the map is mutated in place). -/
theorem registerFuel_self_isSome (env : Env) (fuel : Nat) (cache : Cache) (desc : MessageDesc) :
    (lookupC (registerFuel env (fuel + 1) cache desc).2 desc.fullName).isSome := by
  have hreg : ∀ c t, (lookupC c desc.fullName).isSome →
      (lookupC ((regCallbackF env fuel) c t).2 desc.fullName).isSome := by
    intro c t hc
    rw [regCallbackF]
    cases he : lookupEnv env t with
    | some d => exact registerFuel_isSome desc.fullName fuel env c d hc
    | none => simpa using hc
  cases hlk : lookupC cache desc.fullName with
  | some v => simp [registerFuel, hlk]
  | none =>
    have hph : (lookupC (insertC cache desc.fullName []) desc.fullName).isSome := by
      rw [lookupC_insert_self]
      rfl
    by_cases hdi : (desc.disabled || desc.ignored) = true
    · simp only [registerFuel, hlk, hdi, if_true]
      exact lookupC_insert_isSome _ _ _ _ hph
    · have hcf := compileFields_isSome (regCallbackF env fuel) desc.fullName hreg desc.fields
        (insertC cache desc.fullName []) [] [] hph
      rcases hc : compileFields (regCallbackF env fuel) (insertC cache desc.fullName [])
          desc.fields [] [] with ⟨r, c2⟩
      rw [hc] at hcf
      cases r with
      | error e => simpa [registerFuel, hlk, hdi, hc] using hcf
      | ok fns =>
        simp only [registerFuel, hlk, hdi, hc, if_false]
        exact lookupC_insert_isSome _ _ _ _ hcf

theorem registerFuel_ok_lookup (env : Env) (fuel : Nat) (cache : Cache) (desc : MessageDesc)
    (u : Unit) (cache' : Cache) (h : registerFuel env fuel cache desc = (Except.ok u, cache')) :
    (lookupC cache' desc.fullName).isSome := by
  cases fuel with
  | zero =>
    rw [registerFuel] at h
    cases h
  | succ fuel =>
    have h2 := registerFuel_self_isSome env fuel cache desc
    rw [h] at h2
    exact h2

/-! ### The validate entry point: lookup, compile on miss, retry -/

/-- C1: validate first looks the message's schema full name up in the cache
under read access and, on a hit, executes the compiled validator against the
message and the cache snapshot and returns its result with the cache
untouched.  On a miss it runs register under write access; when register
succeeds the retried lookup is guaranteed to hit, so one retry level of
fuel always suffices (at most one compilation pass per call, and the
fuel-exhaustion stand-in for an unbounded retry, like the lower-level
unregistered-type error, is never returned).  When register fails, the error
propagates without a retry.  (Lines 140-154 of registry.rs.) -/
theorem validate_lookup_compile_retry :
    (∀ (env : Env) (rf n : Nat) (cache : Cache) (msg : Msg) (steps : Validator),
      lookupC cache msg.typeName = some steps →
      validateFuel env rf (n + 1) cache msg = (runValidator cache steps msg.fields, cache))
    ∧ (∀ (env : Env) (rf n : Nat) (cache : Cache) (msg : Msg) (desc : MessageDesc) (u : Unit)
      (cache' : Cache),
      lookupC cache msg.typeName = none →
      lookupEnv env msg.typeName = some desc →
      registerFuel env rf cache desc = (Except.ok u, cache') →
      ∃ steps, lookupC cache' msg.typeName = some steps ∧
        validateFuel env rf (n + 1 + 1) cache msg =
          (runValidator cache' steps msg.fields, cache'))
    ∧ (∀ (env : Env) (rf n : Nat) (cache : Cache) (msg : Msg) (desc : MessageDesc) (e : Err)
      (cache' : Cache),
      lookupC cache msg.typeName = none →
      lookupEnv env msg.typeName = some desc →
      registerFuel env rf cache desc = (Except.error e, cache') →
      validateFuel env rf (n + 1 + 1) cache msg = (Except.error e, cache')) := by
  refine ⟨?_, ?_, ?_⟩
  · intro env rf n cache msg steps h
    simp [validateFuel, h]
  · intro env rf n cache msg desc u cache' hmiss henv hreg
    have hname : desc.fullName = msg.typeName := lookupEnv_fullName env msg.typeName desc henv
    have hsome := registerFuel_ok_lookup env rf cache desc u cache' hreg
    rw [hname] at hsome
    obtain ⟨steps, hst⟩ := Option.isSome_iff_exists.mp hsome
    refine ⟨steps, hst, ?_⟩
    rw [validateFuel]
    simp only [hmiss, henv, hreg]
    simp [validateFuel, hst]
  · intro env rf n cache msg desc e cache' hmiss henv hreg
    rw [validateFuel]
    simp [hmiss, henv, hreg]

/-- Witness for validate_lookup_compile_retry: a cache hit executes the
cached (empty) validator directly. -/
theorem validate_lookup_compile_retry_witness :
    validateFuel env1 1 1 [("S1", [])] ⟨"S1", []⟩ =
      (runValidator [("S1", [])] [] [], [("S1", [])]) :=
  validate_lookup_compile_retry.1 env1 1 0 [("S1", [])] ⟨"S1", []⟩ [] rfl

/-- C3: register is idempotent — when the cache already binds the
descriptor's full name it returns Ok at once and leaves the cache map
unchanged (lines 33-35); consequently, after one validate call has run for
a schema, a second validate call on any message of the same schema type
finds a cache entry, takes the hit path, performs no compilation, and leaves
the cache exactly as it was. -/
theorem register_idempotent_single_compilation :
    (∀ (env : Env) (f : Nat) (cache : Cache) (desc : MessageDesc) (v : Validator),
      lookupC cache desc.fullName = some v →
      registerFuel env (f + 1) cache desc = (Except.ok (), cache))
    ∧ (∀ (env : Env) (f n : Nat) (cache : Cache) (msg : Msg) (desc : MessageDesc)
      (r : Except Err Unit) (cache' : Cache),
      lookupEnv env msg.typeName = some desc →
      validateFuel env (f + 1) (n + 1 + 1) cache msg = (r, cache') →
      ∃ steps, lookupC cache' msg.typeName = some steps ∧
        ∀ (msg2 : Msg), msg2.typeName = msg.typeName → ∀ (m : Nat),
          validateFuel env (f + 1) (m + 1) cache' msg2 =
            (runValidator cache' steps msg2.fields, cache')) := by
  constructor
  · intro env f cache desc v h
    simp [registerFuel, h]
  · intro env f n cache msg desc r cache' henv hval
    have hname : desc.fullName = msg.typeName := lookupEnv_fullName env msg.typeName desc henv
    have hsome : (lookupC cache' msg.typeName).isSome := by
      cases hlk : lookupC cache msg.typeName with
      | some steps =>
        rw [validateFuel] at hval
        simp only [hlk] at hval
        have hc : cache' = cache := congrArg Prod.snd hval.symm
        rw [hc, hlk]
        rfl
      | none =>
        rw [validateFuel] at hval
        simp only [hlk, henv] at hval
        have hself := registerFuel_self_isSome env f cache desc
        rcases hrg : registerFuel env (f + 1) cache desc with ⟨rr, cc⟩
        rw [hrg] at hval hself
        cases rr with
        | error e =>
          simp only at hval
          have hc : cache' = cc := congrArg Prod.snd hval.symm
          rw [hc, ← hname]
          exact hself
        | ok uu =>
          simp only at hval
          have hself2 : (lookupC cc desc.fullName).isSome := hself
          rw [hname] at hself2
          obtain ⟨steps, hst⟩ := Option.isSome_iff_exists.mp hself2
          rw [validateFuel] at hval
          simp only [hst] at hval
          have hc : cache' = cc := congrArg Prod.snd hval.symm
          rw [hc, hst]
          rfl
    obtain ⟨steps, hst⟩ := Option.isSome_iff_exists.mp hsome
    refine ⟨steps, hst, ?_⟩
    intro msg2 hty m
    have hst2 : lookupC cache' msg2.typeName = some steps := by
      rw [hty]
      exact hst
    rw [validateFuel]
    simp [hst2]

/-- Witness for register_idempotent_single_compilation: registering an
already-cached schema returns Ok with the cache unchanged. -/
theorem register_idempotent_single_compilation_witness :
    registerFuel env1 1 [("S1", [])] desc1 = (Except.ok (), [("S1", [])]) :=
  register_idempotent_single_compilation.1 env1 0 [("S1", [])] desc1 [] rfl

/-- Helper: the hit branch of register (lines 33-35). -/
theorem register_hit (env : Env) (f : Nat) (cache : Cache) (desc : MessageDesc)
    (v : Validator) (h : lookupC cache desc.fullName = some v) :
    registerFuel env (f + 1) cache desc = (Except.ok (), cache) := by
  simp [registerFuel, h]

/-! ### Disabled and ignored schemas compile to a permanent no-op -/

/-- C8: when the type-level options mark a schema disabled or ignored,
register overwrites the placeholder with the permanent no-op validator
without inspecting any field (the result is the same for any field list,
stated through a second descriptor differing only in its fields), and
validate on every message of that type then succeeds whatever the field
contents.  (Lines 40-44 of registry.rs.) -/
theorem disabled_ignored_schema_noop (env : Env) (f : Nat) (cache : Cache)
    (desc : MessageDesc) (hmiss : lookupC cache desc.fullName = none)
    (hflag : desc.disabled = true ∨ desc.ignored = true) :
    registerFuel env (f + 1) cache desc =
      (Except.ok (), insertC (insertC cache desc.fullName []) desc.fullName [])
    ∧ (∀ (desc2 : MessageDesc), desc2.fullName = desc.fullName →
        desc2.disabled = desc.disabled → desc2.ignored = desc.ignored →
        registerFuel env (f + 1) cache desc2 = registerFuel env (f + 1) cache desc)
    ∧ (∀ (rf m : Nat) (fields : List (String × Value)),
        validateFuel env rf (m + 1)
          (insertC (insertC cache desc.fullName []) desc.fullName [])
          ⟨desc.fullName, fields⟩ =
          (Except.ok (), insertC (insertC cache desc.fullName []) desc.fullName [])) := by
  have hdi : (desc.disabled || desc.ignored) = true := by
    rcases hflag with h2 | h2 <;> simp [h2]
  refine ⟨?_, ?_, ?_⟩
  · simp [registerFuel, hmiss, hdi]
  · intro desc2 hn hd hi
    have hdi2 : (desc2.disabled || desc2.ignored) = true := by
      rw [hd, hi]
      exact hdi
    have hmiss2 : lookupC cache desc2.fullName = none := by
      rw [hn]
      exact hmiss
    simp [registerFuel, hmiss, hmiss2, hdi, hdi2, hn]
  · intro rf m fields
    have hhit : lookupC (insertC (insertC cache desc.fullName []) desc.fullName [])
        (Msg.mk desc.fullName fields).typeName = some [] := lookupC_insert_self _ _ _
    rw [validateFuel]
    simp [hhit, runValidator_nil]

/-- Witness for disabled_ignored_schema_noop: schema S8 is disabled and its
only field would fail rule extraction, yet register succeeds without
touching it and a message with that field populated validates. -/
theorem disabled_ignored_schema_noop_witness :
    registerFuel env8 1 [] desc8 =
      (Except.ok (), insertC (insertC [] "S8" []) "S8" [])
    ∧ validateFuel env8 1 1 (insertC (insertC [] "S8" []) "S8" [])
        ⟨"S8", [("S8.f", Value.scalar 5)]⟩ =
      (Except.ok (), insertC (insertC [] "S8" []) "S8" []) :=
  ⟨(disabled_ignored_schema_noop env8 0 [] desc8 rfl (Or.inl rfl)).1,
    (disabled_ignored_schema_noop env8 0 [] desc8 rfl (Or.inl rfl)).2.2 1 0
      [("S8.f", Value.scalar 5)]⟩

/-! ### A failed compilation leaves the placeholder behind (code bug) -/

/-- C4 evaluation: schema S4's only field fails rule extraction, so register
fails; but the recursion placeholder inserted at line 37 is not removed on
the error path, so it remains in the cache bound to the schema's name as a
no-op validator, and a subsequent validate call finds it and returns Ok for
any message of that type — an external observer does see the placeholder as
the final answer for a schema whose compilation started and failed,
contradicting the claim (which matches the stated intent that the
placeholder exists only to break recursive compilation). -/
theorem failed_compile_leaves_placeholder :
    (registerFuel env4 1 [] desc4).1 = Except.error "rule extraction failed"
    ∧ lookupC (registerFuel env4 1 [] desc4).2 "S4" = some []
    ∧ (validateFuel env4 1 1 (registerFuel env4 1 [] desc4).2
        ⟨"S4", [("S4.f", Value.scalar 0)]⟩).1 = Except.ok () := by
  refine ⟨?_, ?_, ?_⟩ <;>
    simp [registerFuel, compileFields, regCallbackF, validateFuel, runValidator, lookupC,
      insertC, lookupEnv, env4, desc4]

/-! ### Recursive schema graphs compile and validate with bounded fuel -/

/-- C2: the placeholder inserted before any field is examined (line 37)
guards recursion.  For the directly self-referencing schema A, compilation
from the empty cache succeeds with recursion depth two regardless of any
extra fuel (the nested Compile for A observes the placeholder and returns
at once), and validate terminates on every message instance of A, empty or
populated, executing the finalized plan; likewise for the mutually
referencing pair MA and MB with recursion depth three.  Fuel-independence of
the results is the termination statement: the recursion never exceeds the
number of distinct reachable schemas plus one. -/
theorem recursive_schema_compilation_terminates :
    (∀ (b : Nat), registerFuel envA (b + 1 + 1) [] descA = (Except.ok (), cacheA))
    ∧ (∀ (a b : Nat) (fields : List (String × Value)),
        validateFuel envA (b + 1 + 1) (a + 1 + 1) [] ⟨"A", fields⟩ =
          (runValidator cacheA stepsA fields, cacheA))
    ∧ (∀ (b : Nat), registerFuel envAB (b + 1 + 1 + 1) [] descMA = (Except.ok (), cacheAB))
    ∧ (∀ (a b : Nat) (fields : List (String × Value)),
        validateFuel envAB (b + 1 + 1 + 1) (a + 1 + 1) [] ⟨"MA", fields⟩ =
          (runValidator cacheAB stepsMA fields, cacheAB)) := by
  have hA : ∀ (b : Nat), registerFuel envA (b + 1 + 1) [] descA = (Except.ok (), cacheA) := by
    intro b
    have hhit : registerFuel envA (b + 1) [("A", [])] descA = (Except.ok (), [("A", [])]) :=
      register_hit envA b [("A", [])] descA [] rfl
    simp [registerFuel, compileFields, makeValidateFieldM, regCallbackF, lookupC, insertC,
      lookupS, lookupEnv, envA, descA, trivRules, cacheA, stepsA, List.find?, hhit]
  have hAB : ∀ (b : Nat),
      registerFuel envAB (b + 1 + 1 + 1) [] descMA = (Except.ok (), cacheAB) := by
    intro b
    have hhit : registerFuel envAB (b + 1) [("MB", []), ("MA", [])] descMA =
        (Except.ok (), [("MB", []), ("MA", [])]) :=
      register_hit envAB b [("MB", []), ("MA", [])] descMA [] rfl
    simp [registerFuel, compileFields, makeValidateFieldM, regCallbackF, lookupC, insertC,
      lookupS, lookupEnv, envAB, descMA, descMB, trivRules, cacheAB, stepsMA, stepsMB,
      List.find?, hhit]
  refine ⟨hA, ?_, hAB, ?_⟩
  · intro a b fields
    have hreg := hA b
    simp only [envA, descA, trivRules, cacheA, stepsA] at hreg
    simp [validateFuel, hreg, lookupC, lookupEnv, envA, descA, trivRules, List.find?, cacheA,
      stepsA]
  · intro a b fields
    have hreg := hAB b
    simp only [envAB, descMA, descMB, trivRules, cacheAB, stepsMA, stepsMB] at hreg
    simp [validateFuel, hreg, lookupC, lookupEnv, envAB, descMA, descMB, trivRules,
      List.find?, cacheAB, stepsMA, stepsMB]

/-- Witness for recursive_schema_compilation_terminates: a populated
recursive instance of A (A nested inside A) validates through the compiled
plan with the minimal fuel. -/
theorem recursive_schema_compilation_terminates_witness :
    validateFuel envA 2 2 []
      ⟨"A", [("A.self", Value.msg "A" [("A.self", Value.msg "A" [])])]⟩ =
      (runValidator cacheA stepsA [("A.self", Value.msg "A" [("A.self", Value.msg "A" [])])],
        cacheA) :=
  recursive_schema_compilation_terminates.2.1 0 0
    [("A.self", Value.msg "A" [("A.self", Value.msg "A" [])])]

/-! ### Oneof groups are processed only at a ruled member -/

/-- C6 counterexample: in schema S6 every member of the exclusivity-required
group g6g has a rule extraction of none, so the outer field loop skips both
members at the rules check before ever reaching the oneof branch: the group
is processed zero times, not exactly once — the compiled plan is empty, no
exclusivity step is added although the group requests it, and a message with
no member set validates successfully (the claimed exclusivity step would
have rejected it). -/
theorem oneof_group_unprocessed_counterexample :
    fx6.containingOneof = some g6
    ∧ g6.oneofRules = true
    ∧ (registerFuel env6 1 [] desc6).1 = Except.ok ()
    ∧ lookupC (registerFuel env6 1 [] desc6).2 "S6" = some []
    ∧ (validateFuel env6 1 2 [] ⟨"S6", []⟩).1 = Except.ok () := by
  refine ⟨rfl, rfl, ?_, ?_, ?_⟩ <;>
    simp [registerFuel, compileFields, compileOneofFields, regCallbackF, validateFuel,
      runValidator, lookupC, insertC, lookupS, lookupEnv, env6, desc6, fx6, fy6, g6]

/-! ### A rule-less field can still influence validation through its group -/

/-- C10 counterexample: member x10 of the exclusivity-required group g10g
has rule extraction none, so it contributes no step of its own to the
compiled plan; yet the exclusivity step contributed by the ruled member y10
scans all member fields, x10 included.  The two messages below differ only
in the value of the rule-less field x10 (get_field agrees on every other
name), but validate accepts the first and rejects the second — mutating a
rule-less field can cause validation to fail, refuting the claim. -/
theorem ruleless_oneof_member_interference_counterexample :
    fx10.rules = Except.ok none
    ∧ (validateFuel env10 1 2 [] ⟨"S10", [("y10", Value.scalar 1)]⟩).1 = Except.ok ()
    ∧ (validateFuel env10 1 2 []
        ⟨"S10", [("x10", Value.scalar 1), ("y10", Value.scalar 1)]⟩).1 =
      Except.error "oneof g10g contains multiple values" := by
  refine ⟨rfl, ?_, ?_⟩ <;>
    simp [registerFuel, compileFields, compileOneofFields, makeValidateFieldM, regCallbackF,
      validateFuel, runValidator, runStep, runCheck, oneofScan, lookupC, insertC, lookupS,
      lookupEnv, env10, desc10, fx10, fy10, g10, trivRules, getField, isSet]



/-- The member loop appends only presence-guarded member steps, never an
exclusivity step, so it preserves the exclusivity-step count of any group. -/
theorem compileOneofFields_count (reg : RegFn) (gn gname : String) :
    ∀ (gfs : List OneofFieldD) (cache : Cache) (oneofs : List (String × String))
      (fns : List Step) (o' : List (String × String)) (fns' : List Step) (c' : Cache),
      compileOneofFields reg gn cache gfs oneofs fns = (Except.ok (o', fns'), c') →
      (fns'.filter (isCheckFor gname)).length = (fns.filter (isCheckFor gname)).length := by
  intro gfs
  induction gfs with
  | nil =>
    intro cache oneofs fns o' fns' c' h
    simp only [compileOneofFields, Prod.mk.injEq, Except.ok.injEq] at h
    rw [← h.1.2]
  | cons f rest ih =>
    intro cache oneofs fns o' fns' c' h
    cases hr : f.rules with
    | error e => simp [compileOneofFields, hr] at h
    | ok o =>
      cases o with
      | none =>
        simp only [compileOneofFields, hr] at h
        exact ih _ _ _ _ _ _ h
      | some rules =>
        rcases hm : makeValidateFieldM reg cache f.messageType rules with ⟨r, cm⟩
        cases r with
        | error e => simp [compileOneofFields, hr, hm] at h
        | ok check =>
          simp only [compileOneofFields, hr, hm] at h
          have h2 := ih _ _ _ _ _ _ h
          rw [h2]
          simp [List.filter_append, isCheckFor]

/-- The member loop records every member of the processed group in the
membership map, preserves existing keys, and touches no other key. -/
theorem compileOneofFields_oneofs (reg : RegFn) (gn : String) :
    ∀ (gfs : List OneofFieldD) (cache : Cache) (oneofs : List (String × String))
      (fns : List Step) (o' : List (String × String)) (fns' : List Step) (c' : Cache),
      compileOneofFields reg gn cache gfs oneofs fns = (Except.ok (o', fns'), c') →
      (∀ m ∈ gfs, (lookupS o' m.fullName).isSome)
      ∧ (∀ k, (lookupS oneofs k).isSome → (lookupS o' k).isSome)
      ∧ (∀ k, (∀ m ∈ gfs, m.fullName ≠ k) → lookupS o' k = lookupS oneofs k) := by
  intro gfs
  induction gfs with
  | nil =>
    intro cache oneofs fns o' fns' c' h
    simp only [compileOneofFields, Prod.mk.injEq, Except.ok.injEq] at h
    rw [← h.1.1]
    exact ⟨fun m hm => absurd hm (List.not_mem_nil m), fun k hk => hk, fun k _ => rfl⟩
  | cons f rest ih =>
    intro cache oneofs fns o' fns' c' h
    have hcons1 : (lookupS ((f.fullName, gn) :: oneofs) f.fullName).isSome := by
      simp [lookupS]
    have hcons2 : ∀ k, (lookupS oneofs k).isSome →
        (lookupS ((f.fullName, gn) :: oneofs) k).isSome := by
      intro k hk
      simp only [lookupS]
      split
      · rfl
      · exact hk
    have hcons3 : ∀ k, f.fullName ≠ k →
        lookupS ((f.fullName, gn) :: oneofs) k = lookupS oneofs k := by
      intro k hk
      simp only [lookupS]
      rw [if_neg]
      simp [hk]
    cases hr : f.rules with
    | error e => simp [compileOneofFields, hr] at h
    | ok o =>
      cases o with
      | none =>
        simp only [compileOneofFields, hr] at h
        have H := ih _ _ _ _ _ _ h
        refine ⟨?_, ?_, ?_⟩
        · intro m hm
          rcases List.mem_cons.mp hm with h1 | h1
          · rw [h1]
            exact H.2.1 f.fullName hcons1
          · exact H.1 m h1
        · intro k hk
          exact H.2.1 k (hcons2 k hk)
        · intro k hk
          rw [H.2.2 k (fun m hm => hk m (List.mem_cons_of_mem f hm))]
          exact hcons3 k (hk f (List.mem_cons_self f rest))
      | some rules =>
        rcases hm : makeValidateFieldM reg cache f.messageType rules with ⟨r, cm⟩
        cases r with
        | error e => simp [compileOneofFields, hr, hm] at h
        | ok check =>
          simp only [compileOneofFields, hr, hm] at h
          have H := ih _ _ _ _ _ _ h
          refine ⟨?_, ?_, ?_⟩
          · intro m hm
            rcases List.mem_cons.mp hm with h1 | h1
            · rw [h1]
              exact H.2.1 f.fullName hcons1
            · exact H.1 m h1
          · intro k hk
            exact H.2.1 k (hcons2 k hk)
          · intro k hk
            rw [H.2.2 k (fun m hm => hk m (List.mem_cons_of_mem f hm))]
            exact hcons3 k (hk f (List.mem_cons_self f rest))



/-- The field loop invariant for the exclusivity-step count of a group g:
if every member of g is already in the membership map the count is
unchanged, and if none is, the count grows by one exactly when g requests
exclusivity and some remaining field is a member of g with extractable
rules. -/
theorem compileFields_check_count (reg : RegFn) (g : OneofDesc) :
    ∀ (fs : List FieldDesc) (cache : Cache) (oneofs : List (String × String))
      (fns : List Step) (fns' : List Step) (c' : Cache),
      compileFields reg cache fs oneofs fns = (Except.ok fns', c') →
      (∀ f ∈ fs, ∀ g', f.containingOneof = some g' → g'.name = g.name → g' = g) →
      (∀ f ∈ fs, ∀ g', f.containingOneof = some g' →
        f.fullName ∈ g'.fields.map (fun m => m.fullName)) →
      (∀ f ∈ fs, ∀ g', f.containingOneof = some g' → g' ≠ g →
        ∀ m ∈ g'.fields, ¬ m.fullName ∈ g.fields.map (fun mm => mm.fullName)) →
      ((∀ nm ∈ g.fields.map (fun m => m.fullName), (lookupS oneofs nm).isSome) →
        (fns'.filter (isCheckFor g.name)).length = (fns.filter (isCheckFor g.name)).length)
      ∧ ((∀ nm ∈ g.fields.map (fun m => m.fullName), lookupS oneofs nm = none) →
        (fns'.filter (isCheckFor g.name)).length =
          (fns.filter (isCheckFor g.name)).length +
            (if g.oneofRules && fs.any (triggers g.name) then 1 else 0)) := by
  intro fs
  induction fs with
  | nil =>
    intro cache oneofs fns fns' c' h _ _ _
    simp only [compileFields, Prod.mk.injEq, Except.ok.injEq] at h
    rw [← h.1]
    exact ⟨fun _ => rfl, fun _ => by simp⟩
  | cons f rest ih =>
    intro cache oneofs fns fns' c' h Hg Hm Hd
    have Hg' := fun f' hf' => Hg f' (List.mem_cons_of_mem f hf')
    have Hm' := fun f' hf' => Hm f' (List.mem_cons_of_mem f hf')
    have Hd' := fun f' hf' => Hd f' (List.mem_cons_of_mem f hf')
    cases hr : f.rules with
    | error e => simp [compileFields, hr] at h
    | ok o =>
      cases o with
      | none =>
        simp only [compileFields, hr] at h
        have htf : triggers g.name f = false := by
          simp [triggers, hasRuleSome, hr]
        have H := ih _ _ _ _ _ h Hg' Hm' Hd'
        refine ⟨H.1, fun hB => ?_⟩
        rw [H.2 hB]
        simp [List.any_cons, htf]
      | some rules =>
        cases hsk : (lookupS oneofs f.fullName).isSome with
        | true =>
          simp only [compileFields, hr, hsk, if_true] at h
          have H := ih _ _ _ _ _ h Hg' Hm' Hd'
          refine ⟨H.1, fun hB => ?_⟩
          have htf : triggers g.name f = false := by
            cases hco : f.containingOneof with
            | none => simp [triggers, hco]
            | some g' =>
              by_cases hgg : g'.name = g.name
              · exfalso
                have hgeq : g' = g := Hg f (List.mem_cons_self f rest) g' hco hgg
                have hmem : f.fullName ∈ g.fields.map (fun m => m.fullName) := by
                  have := Hm f (List.mem_cons_self f rest) g' hco
                  rw [hgeq] at this
                  exact this
                rw [hB f.fullName hmem] at hsk
                cases hsk
              · simp [triggers, hco, hgg]
          rw [H.2 hB]
          simp [List.any_cons, htf]
        | false =>
          cases hco : f.containingOneof with
          | none =>
            have htf : triggers g.name f = false := by simp [triggers, hco]
            cases hl : f.isList with
            | true =>
              simp only [compileFields, hr, hsk, hco, hl, if_true, if_false,
                Bool.false_eq_true] at h
              have H := ih _ _ _ _ _ h Hg' Hm' Hd'
              have hfil : ((fns ++ [Step.listStep f.fullName rules.listChain]).filter
                  (isCheckFor g.name)).length = (fns.filter (isCheckFor g.name)).length := by
                simp [List.filter_append, isCheckFor]
              refine ⟨fun hA => by rw [H.1 hA, hfil], fun hB => ?_⟩
              rw [H.2 hB, hfil]
              simp [List.any_cons, htf]
            | false =>
              cases hmp : f.isMap with
              | true =>
                simp only [compileFields, hr, hsk, hco, hl, hmp, if_true, if_false,
                  Bool.false_eq_true] at h
                have H := ih _ _ _ _ _ h Hg' Hm' Hd'
                have hfil : ((fns ++ [Step.mapStep f.fullName rules.mapChain]).filter
                    (isCheckFor g.name)).length = (fns.filter (isCheckFor g.name)).length := by
                  simp [List.filter_append, isCheckFor]
                refine ⟨fun hA => by rw [H.1 hA, hfil], fun hB => ?_⟩
                rw [H.2 hB, hfil]
                simp [List.any_cons, htf]
              | false =>
                rcases hmv : makeValidateFieldM reg cache f.messageType rules with ⟨r, cm⟩
                cases r with
                | error e =>
                  simp [compileFields, hr, hsk, hco, hl, hmp, hmv] at h
                | ok check =>
                  simp only [compileFields, hr, hsk, hco, hl, hmp, hmv, if_false,
                    Bool.false_eq_true] at h
                  have H := ih _ _ _ _ _ h Hg' Hm' Hd'
                  have hfil : ((fns ++ [Step.fieldStep f.fullName check]).filter
                      (isCheckFor g.name)).length = (fns.filter (isCheckFor g.name)).length := by
                    simp [List.filter_append, isCheckFor]
                  refine ⟨fun hA => by rw [H.1 hA, hfil], fun hB => ?_⟩
                  rw [H.2 hB, hfil]
                  simp [List.any_cons, htf]
          | some g' =>
            rcases hof : compileOneofFields reg g'.name cache g'.fields oneofs fns with ⟨ro, co⟩
            cases ro with
            | error e => simp [compileFields, hr, hsk, hco, hof] at h
            | ok p =>
              rcases p with ⟨o1, fns1⟩
              simp only [compileFields, hr, hsk, hco, hof, if_false, Bool.false_eq_true] at h
              have hcnt := compileOneofFields_count reg g'.name g.name g'.fields cache oneofs
                fns o1 fns1 co hof
              have hone := compileOneofFields_oneofs reg g'.name g'.fields cache oneofs
                fns o1 fns1 co hof
              by_cases hgg : g'.name = g.name
              · have hgeq : g' = g := Hg f (List.mem_cons_self f rest) g' hco hgg
                subst hgeq
                have htf : triggers g'.name f = true := by
                  simp [triggers, hco, hasRuleSome, hr]
                have hA1 : ∀ nm ∈ g'.fields.map (fun m => m.fullName),
                    (lookupS o1 nm).isSome := by
                  intro nm hnm
                  obtain ⟨m, hmm, hrfl⟩ := List.mem_map.mp hnm
                  rw [← hrfl]
                  exact hone.1 m hmm
                have H := ih _ _ _ _ _ h Hg' Hm' Hd'
                have hup := H.1 hA1
                refine ⟨?_, fun hB => ?_⟩
                · intro hA
                  exfalso
                  have hmem := Hm f (List.mem_cons_self f rest) g' hco
                  rw [hA f.fullName hmem] at hsk
                  cases hsk
                · rw [hup]
                  cases hko : g'.oneofRules with
                  | true =>
                    simp only [hko, if_true]
                    rw [List.filter_append, List.length_append]
                    rw [hcnt]
                    simp [isCheckFor, List.any_cons, htf]
                  | false =>
                    simp only [hko, if_false, Bool.false_eq_true]
                    rw [hcnt]
                    simp
              · have hgne : g' ≠ g := fun he => hgg (by rw [he])
                have htf : triggers g.name f = false := by
                  simp [triggers, hco, hgg]
                have hbeq : (g'.name == g.name) = false := beq_eq_false_iff_ne.mpr hgg
                have hfil : ((if g'.oneofRules then
                    fns1 ++ [Step.oneofCheck g'.name (g'.fields.map fun m => m.fullName)]
                    else fns1).filter (isCheckFor g.name)).length =
                    (fns.filter (isCheckFor g.name)).length := by
                  cases g'.oneofRules with
                  | true =>
                    simp only [if_true]
                    rw [List.filter_append, List.length_append, hcnt]
                    simp [isCheckFor, hbeq]
                  | false =>
                    simp only [if_false, Bool.false_eq_true]
                    exact hcnt
                have H := ih _ _ _ _ _ h Hg' Hm' Hd'
                refine ⟨fun hA => ?_, fun hB => ?_⟩
                · have hA1 : ∀ nm ∈ g.fields.map (fun m => m.fullName),
                      (lookupS o1 nm).isSome := by
                    intro nm hnm
                    exact hone.2.1 nm (hA nm hnm)
                  rw [H.1 hA1, hfil]
                · have hB1 : ∀ nm ∈ g.fields.map (fun m => m.fullName),
                      lookupS o1 nm = none := by
                    intro nm hnm
                    have hfr : ∀ m ∈ g'.fields, m.fullName ≠ nm := by
                      intro m hm he
                      exact Hd f (List.mem_cons_self f rest) g' hco hgne m hm (he ▸ hnm)
                    rw [hone.2.2 nm hfr]
                    exact hB nm hnm
                  rw [H.2 hB1, hfil]
                  simp [List.any_cons, htf]



/-- C6 (amended): during compilation, a mutually-exclusive group at least
one of whose member fields has extractable rules is processed exactly once —
at the first member field in declaration order whose rule extraction yields
a payload — and when the group requests exclusivity exactly one exclusivity
step for it enters the plan; member fields encountered later are skipped
through the membership map, adding no further steps for the group.  A group
none of whose members yields rules is never processed (zero exclusivity
steps even when requested) because the rules check of the outer field loop
precedes the oneof handling.  Formally: the finalized plan holds exactly one
exclusivity step for the group when the group requests exclusivity and some
member field triggers, and zero otherwise.  The hypotheses say the schema's
oneof structure is well formed: groups with the same name coincide, member
fields occur in their group's member list, and the member-name sets of
distinct groups are disjoint from the group under consideration. -/
theorem oneof_group_processed_once (env : Env) (fuel : Nat) (cache : Cache)
    (desc : MessageDesc) (g : OneofDesc) (u : Unit) (cache' : Cache)
    (hmiss : lookupC cache desc.fullName = none)
    (hdis : desc.disabled = false) (hign : desc.ignored = false)
    (hreg : registerFuel env (fuel + 1) cache desc = (Except.ok u, cache'))
    (Hg : ∀ f ∈ desc.fields, ∀ g', f.containingOneof = some g' → g'.name = g.name → g' = g)
    (Hm : ∀ f ∈ desc.fields, ∀ g', f.containingOneof = some g' →
      f.fullName ∈ g'.fields.map (fun m => m.fullName))
    (Hd : ∀ f ∈ desc.fields, ∀ g', f.containingOneof = some g' → g' ≠ g →
      ∀ m ∈ g'.fields, ¬ m.fullName ∈ g.fields.map (fun mm => mm.fullName)) :
    ∃ steps, lookupC cache' desc.fullName = some steps ∧
      (steps.filter (isCheckFor g.name)).length =
        (if g.oneofRules && desc.fields.any (triggers g.name) then 1 else 0) := by
  rw [registerFuel] at hreg
  simp only [hmiss, hdis, hign, Bool.or_self, Bool.false_eq_true, if_false] at hreg
  rcases hcf : compileFields (regCallbackF env fuel) (insertC cache desc.fullName [])
      desc.fields [] [] with ⟨r, c2⟩
  rw [hcf] at hreg
  cases r with
  | error e => simp at hreg
  | ok fns =>
    simp only at hreg
    have hc : insertC c2 desc.fullName fns = cache' := congrArg Prod.snd hreg
    refine ⟨fns, ?_, ?_⟩
    · rw [← hc]
      exact lookupC_insert_self c2 desc.fullName fns
    · have H := compileFields_check_count (regCallbackF env fuel) g desc.fields
        (insertC cache desc.fullName []) [] [] fns c2 hcf Hg Hm Hd
      have h2 := H.2 (fun nm _ => rfl)
      simpa using h2

/-- Witness for oneof_group_processed_once: compiling S5 places exactly one
exclusivity step for its group g in the plan. -/
theorem oneof_group_processed_once_witness :
    ∃ steps, lookupC cache5 "S5" = some steps ∧
      (steps.filter (isCheckFor "g")).length = 1 := by
  have hreg : registerFuel env5 1 [] desc5 = (Except.ok (), cache5) := by
    simp [registerFuel, compileFields, compileOneofFields, makeValidateFieldM, regCallbackF,
      lookupC, insertC, lookupS, lookupEnv, env5, desc5, fx5, fy5, g5, cache5, steps5,
      trivRules, List.find?]
  have H := oneof_group_processed_once env5 0 [] desc5 g5 () cache5 rfl rfl rfl hreg
    ?_ ?_ ?_
  · obtain ⟨steps, h1, h2⟩ := H
    refine ⟨steps, h1, ?_⟩
    simpa [g5, desc5, fx5, fy5, triggers, hasRuleSome, trivRules] using h2
  · intro f hf g' hco hname
    simp only [desc5, List.mem_cons, List.not_mem_nil, or_false] at hf
    rcases hf with hf | hf <;> subst hf
    · rw [show fx5.containingOneof = some g5 from rfl] at hco
      exact (Option.some.inj hco).symm
    · rw [show fy5.containingOneof = some g5 from rfl] at hco
      exact (Option.some.inj hco).symm
  · intro f hf g' hco
    simp only [desc5, List.mem_cons, List.not_mem_nil, or_false] at hf
    rcases hf with hf | hf <;> subst hf
    · rw [show fx5.containingOneof = some g5 from rfl] at hco
      rw [← Option.some.inj hco]
      simp [fx5, g5]
    · rw [show fy5.containingOneof = some g5 from rfl] at hco
      rw [← Option.some.inj hco]
      simp [fy5, g5]
  · intro f hf g' hco hne
    exfalso
    apply hne
    simp only [desc5, List.mem_cons, List.not_mem_nil, or_false] at hf
    rcases hf with hf | hf <;> subst hf
    · rw [show fx5.containingOneof = some g5 from rfl] at hco
      exact (Option.some.inj hco).symm
    · rw [show fy5.containingOneof = some g5 from rfl] at hco
      exact (Option.some.inj hco).symm




/-- The exclusivity scan reads the message only through get_field on the
member names. -/
theorem oneofScan_congr (g : String) (f1 f2 : List (String × Value)) :
    ∀ (ms : List String) (has : Bool), (∀ n ∈ ms, getField f1 n = getField f2 n) →
      oneofScan g f1 ms has = oneofScan g f2 ms has := by
  intro ms
  induction ms with
  | nil => intro has h; rfl
  | cons hd tl ih =>
    intro has h
    have hhd := h hd (List.mem_cons_self hd tl)
    rw [oneofScan, oneofScan, hhd]
    cases hset : isSet (getField f2 hd) with
    | true =>
      simp only [hset, if_true]
      cases has with
      | true => rfl
      | false => exact ih true (fun n hn => h n (List.mem_cons_of_mem hd hn))
    | false =>
      simp only [hset, Bool.false_eq_true, if_false]
      exact ih has (fun n hn => h n (List.mem_cons_of_mem hd hn))

/-- A step reads the message only through get_field on its stepReads
names: two messages agreeing there are indistinguishable to the step. -/
theorem runStep_congr (cache : Cache) (s : Step) (f1 f2 : List (String × Value))
    (h : ∀ n ∈ stepReads s, getField f1 n = getField f2 n) :
    runStep cache s f1 = runStep cache s f2 := by
  cases s with
  | oneofField n check =>
    have hn := h n (by simp [stepReads])
    simp only [runStep]
    rw [hn]
  | oneofCheck g members =>
    simp only [runStep]
    exact oneofScan_congr g f1 f2 members false
      (fun n hn => h n (by simpa [stepReads] using hn))
  | listStep n chain =>
    have hn := h n (by simp [stepReads])
    simp only [runStep]
    rw [hn]
  | mapStep n chain =>
    have hn := h n (by simp [stepReads])
    simp only [runStep]
    rw [hn]
  | fieldStep n check =>
    have hn := h n (by simp [stepReads])
    simp only [runStep]
    rw [hn]

/-- A compiled validator reads the message only through its steps' reads. -/
theorem runValidator_congr (cache : Cache) :
    ∀ (steps : List Step) (f1 f2 : List (String × Value)),
      (∀ s ∈ steps, ∀ n ∈ stepReads s, getField f1 n = getField f2 n) →
      runValidator cache steps f1 = runValidator cache steps f2 := by
  intro steps
  induction steps with
  | nil =>
    intro f1 f2 h
    rw [runValidator_nil, runValidator_nil]
  | cons s rest ih =>
    intro f1 f2 h
    have hs := runStep_congr cache s f1 f2 (h s (List.mem_cons_self s rest))
    cases hr : runStep cache s f2 with
    | error e =>
      rw [runValidator_cons_error cache s rest f1 e (hs.trans hr),
        runValidator_cons_error cache s rest f2 e hr]
    | ok u =>
      cases u
      rw [runValidator_cons_ok cache s rest f1 () (hs.trans hr),
        runValidator_cons_ok cache s rest f2 () hr]
      exact ih f1 f2 (fun t ht => h t (List.mem_cons_of_mem s ht))

/-- Steps added by the member loop read only member names of the group. -/
theorem compileOneofFields_reads (reg : RegFn) (gn x : String) :
    ∀ (gfs : List OneofFieldD) (cache : Cache) (oneofs : List (String × String))
      (fns : List Step) (o' : List (String × String)) (fns' : List Step) (c' : Cache),
      compileOneofFields reg gn cache gfs oneofs fns = (Except.ok (o', fns'), c') →
      (∀ m ∈ gfs, m.fullName ≠ x) →
      (∀ s ∈ fns, ¬ x ∈ stepReads s) →
      ∀ s ∈ fns', ¬ x ∈ stepReads s := by
  intro gfs
  induction gfs with
  | nil =>
    intro cache oneofs fns o' fns' c' h hne hav
    simp only [compileOneofFields, Prod.mk.injEq, Except.ok.injEq] at h
    rw [← h.1.2]
    exact hav
  | cons f rest ih =>
    intro cache oneofs fns o' fns' c' h hne hav
    cases hr : f.rules with
    | error e => simp [compileOneofFields, hr] at h
    | ok o =>
      cases o with
      | none =>
        simp only [compileOneofFields, hr] at h
        exact ih _ _ _ _ _ _ h (fun m hm => hne m (List.mem_cons_of_mem f hm)) hav
      | some rules =>
        rcases hm : makeValidateFieldM reg cache f.messageType rules with ⟨r, cm⟩
        cases r with
        | error e => simp [compileOneofFields, hr, hm] at h
        | ok check =>
          simp only [compileOneofFields, hr, hm] at h
          refine ih _ _ _ _ _ _ h (fun m hmm => hne m (List.mem_cons_of_mem f hmm)) ?_
          intro s hs
          rcases List.mem_append.mp hs with h1 | h1
          · exact hav s h1
          · simp only [List.mem_singleton] at h1
            rw [h1]
            simp only [stepReads, List.mem_singleton]
            intro he
            exact hne f (List.mem_cons_self f rest) (he ▸ rfl)

/-- No step of the compiled plan reads a name x when every field named x
lacks rules and x is not a member name of any oneof of the schema. -/
theorem compileFields_reads (reg : RegFn) (x : String) :
    ∀ (fs : List FieldDesc) (cache : Cache) (oneofs : List (String × String))
      (fns : List Step) (fns' : List Step) (c' : Cache),
      compileFields reg cache fs oneofs fns = (Except.ok fns', c') →
      (∀ f ∈ fs, f.fullName = x → hasRuleSome f.rules = false) →
      (∀ f ∈ fs, ∀ g', f.containingOneof = some g' →
        ¬ x ∈ g'.fields.map (fun m => m.fullName)) →
      (∀ s ∈ fns, ¬ x ∈ stepReads s) →
      ∀ s ∈ fns', ¬ x ∈ stepReads s := by
  intro fs
  induction fs with
  | nil =>
    intro cache oneofs fns fns' c' h _ _ hav
    simp only [compileFields, Prod.mk.injEq, Except.ok.injEq] at h
    rw [← h.1]
    exact hav
  | cons f rest ih =>
    intro cache oneofs fns fns' c' h H1 H2 hav
    have H1' := fun f' hf' => H1 f' (List.mem_cons_of_mem f hf')
    have H2' := fun f' hf' => H2 f' (List.mem_cons_of_mem f hf')
    cases hr : f.rules with
    | error e => simp [compileFields, hr] at h
    | ok o =>
      cases o with
      | none =>
        simp only [compileFields, hr] at h
        exact ih _ _ _ _ _ h H1' H2' hav
      | some rules =>
        have hfx : f.fullName ≠ x := by
          intro he
          have h1 := H1 f (List.mem_cons_self f rest) he
          rw [hr] at h1
          simp [hasRuleSome] at h1
        cases hsk : (lookupS oneofs f.fullName).isSome with
        | true =>
          simp only [compileFields, hr, hsk, if_true] at h
          exact ih _ _ _ _ _ h H1' H2' hav
        | false =>
          cases hco : f.containingOneof with
          | some g' =>
            rcases hof : compileOneofFields reg g'.name cache g'.fields oneofs fns with ⟨ro, co⟩
            cases ro with
            | error e => simp [compileFields, hr, hsk, hco, hof] at h
            | ok p =>
              rcases p with ⟨o1, fns1⟩
              simp only [compileFields, hr, hsk, hco, hof, if_false, Bool.false_eq_true] at h
              have hxg : ¬ x ∈ g'.fields.map (fun m => m.fullName) :=
                H2 f (List.mem_cons_self f rest) g' hco
              have hmne : ∀ m ∈ g'.fields, m.fullName ≠ x := by
                intro m hm he
                exact hxg (List.mem_map.mpr ⟨m, hm, he⟩)
              have hav1 : ∀ s ∈ fns1, ¬ x ∈ stepReads s :=
                compileOneofFields_reads reg g'.name x g'.fields cache oneofs fns o1 fns1 co
                  hof hmne hav
              refine ih _ _ _ _ _ h H1' H2' ?_
              cases hko : g'.oneofRules with
              | true =>
                simp only [hko, if_true]
                intro s hs
                rcases List.mem_append.mp hs with h1 | h1
                · exact hav1 s h1
                · simp only [List.mem_singleton] at h1
                  rw [h1]
                  simpa [stepReads] using hxg
              | false =>
                simp only [hko, if_false, Bool.false_eq_true]
                exact hav1
          | none =>
            cases hl : f.isList with
            | true =>
              simp only [compileFields, hr, hsk, hco, hl, if_true, if_false,
                Bool.false_eq_true] at h
              refine ih _ _ _ _ _ h H1' H2' ?_
              intro s hs
              rcases List.mem_append.mp hs with h1 | h1
              · exact hav s h1
              · simp only [List.mem_singleton] at h1
                rw [h1]
                simp only [stepReads, List.mem_singleton]
                intro he
                exact hfx (he ▸ rfl)
            | false =>
              cases hmp : f.isMap with
              | true =>
                simp only [compileFields, hr, hsk, hco, hl, hmp, if_true, if_false,
                  Bool.false_eq_true] at h
                refine ih _ _ _ _ _ h H1' H2' ?_
                intro s hs
                rcases List.mem_append.mp hs with h1 | h1
                · exact hav s h1
                · simp only [List.mem_singleton] at h1
                  rw [h1]
                  simp only [stepReads, List.mem_singleton]
                  intro he
                  exact hfx (he ▸ rfl)
              | false =>
                rcases hmv : makeValidateFieldM reg cache f.messageType rules with ⟨r, cm⟩
                cases r with
                | error e => simp [compileFields, hr, hsk, hco, hl, hmp, hmv] at h
                | ok check =>
                  simp only [compileFields, hr, hsk, hco, hl, hmp, hmv, if_false,
                    Bool.false_eq_true] at h
                  refine ih _ _ _ _ _ h H1' H2' ?_
                  intro s hs
                  rcases List.mem_append.mp hs with h1 | h1
                  · exact hav s h1
                  · simp only [List.mem_singleton] at h1
                    rw [h1]
                    simp only [stepReads, List.mem_singleton]
                    intro he
                    exact hfx (he ▸ rfl)



/-- C10 (amended): a field whose Rule Extractor result is none contributes
no step to the compiled plan (no compiled step even reads it), and —
provided the field is not a member of any mutually-exclusive group — the
result of validate never depends on that field's value: two messages of the
schema that agree on every other field name validate identically.  The
restriction to non-members is forced by the counterexample: the exclusivity
step of a group scans all member fields, ruled or not. -/
theorem ruleless_field_noninterference (env : Env) (fuel : Nat) (cache : Cache)
    (desc : MessageDesc) (u : Unit) (cache' : Cache) (x : String)
    (hmiss : lookupC cache desc.fullName = none)
    (hdis : desc.disabled = false) (hign : desc.ignored = false)
    (hreg : registerFuel env (fuel + 1) cache desc = (Except.ok u, cache'))
    (H1 : ∀ f ∈ desc.fields, f.fullName = x → hasRuleSome f.rules = false)
    (H2 : ∀ f ∈ desc.fields, ∀ g', f.containingOneof = some g' →
      ¬ x ∈ g'.fields.map (fun m => m.fullName)) :
    ∃ steps, lookupC cache' desc.fullName = some steps ∧
      (∀ s ∈ steps, ¬ x ∈ stepReads s) ∧
      (∀ (f1 f2 : List (String × Value)), (∀ n, n ≠ x → getField f1 n = getField f2 n) →
        runValidator cache' steps f1 = runValidator cache' steps f2) ∧
      (∀ (rf m : Nat) (f1 f2 : List (String × Value)),
        (∀ n, n ≠ x → getField f1 n = getField f2 n) →
        (validateFuel env rf (m + 1) cache' ⟨desc.fullName, f1⟩).1 =
          (validateFuel env rf (m + 1) cache' ⟨desc.fullName, f2⟩).1) := by
  rw [registerFuel] at hreg
  simp only [hmiss, hdis, hign, Bool.or_self, Bool.false_eq_true, if_false] at hreg
  rcases hcf : compileFields (regCallbackF env fuel) (insertC cache desc.fullName [])
      desc.fields [] [] with ⟨r, c2⟩
  rw [hcf] at hreg
  cases r with
  | error e => simp at hreg
  | ok fns =>
    simp only at hreg
    have hc : insertC c2 desc.fullName fns = cache' := congrArg Prod.snd hreg
    have havoid : ∀ s ∈ fns, ¬ x ∈ stepReads s :=
      compileFields_reads (regCallbackF env fuel) x desc.fields
        (insertC cache desc.fullName []) [] [] fns c2 hcf H1 H2
        (fun s hs => absurd hs (List.not_mem_nil s))
    have hlk : lookupC cache' desc.fullName = some fns := by
      rw [← hc]
      exact lookupC_insert_self c2 desc.fullName fns
    have hrun : ∀ (f1 f2 : List (String × Value)),
        (∀ n, n ≠ x → getField f1 n = getField f2 n) →
        runValidator cache' fns f1 = runValidator cache' fns f2 := by
      intro f1 f2 hf
      exact runValidator_congr cache' fns f1 f2
        (fun s hs n hn => hf n (fun he => havoid s hs (he ▸ hn)))
    refine ⟨fns, hlk, havoid, hrun, ?_⟩
    intro rf m f1 f2 hf
    have e1 : validateFuel env rf (m + 1) cache' ⟨desc.fullName, f1⟩ =
        (runValidator cache' fns f1, cache') := by
      rw [validateFuel]
      simp [hlk]
    have e2 : validateFuel env rf (m + 1) cache' ⟨desc.fullName, f2⟩ =
        (runValidator cache' fns f2, cache') := by
      rw [validateFuel]
      simp [hlk]
    rw [e1, e2]
    simp only
    exact hrun f1 f2 hf

/-- Witness for ruleless_field_noninterference: mutating the rule-less
non-member field z of S11 does not change the validation outcome. -/
theorem ruleless_field_noninterference_witness :
    (validateFuel env11 1 1 cache11 ⟨"S11", [("z", Value.scalar 7)]⟩).1 =
      (validateFuel env11 1 1 cache11 ⟨"S11", []⟩).1 := by
  have hreg : registerFuel env11 1 [] desc11 = (Except.ok (), cache11) := by
    simp [registerFuel, compileFields, makeValidateFieldM, regCallbackF, lookupC, insertC,
      lookupS, lookupEnv, env11, desc11, fz11, fa11, cache11, steps11, trivRules, List.find?]
  have H := ruleless_field_noninterference env11 0 [] desc11 () cache11 "z" rfl rfl rfl hreg
    ?_ ?_
  · obtain ⟨steps, hlk, havoid, hrun, hval⟩ := H
    refine hval 1 0 [("z", Value.scalar 7)] [] ?_
    intro n hn
    have hb : ("z" == n) = false := beq_eq_false_iff_ne.mpr (Ne.symm hn)
    simp [getField, hb]
  · intro f hf he
    simp only [desc11, List.mem_cons, List.not_mem_nil, or_false] at hf
    rcases hf with hf | hf <;> subst hf
    · rfl
    · exact absurd he (by simp [fa11])
  · intro f hf g' hco
    simp only [desc11, List.mem_cons, List.not_mem_nil, or_false] at hf
    rcases hf with hf | hf <;> subst hf
    · exact absurd hco (by simp [fz11])
    · exact absurd hco (by simp [fa11])


end ProstValidate
